import Mathlib

set_option linter.unusedSectionVars false

/-
Shallow embedding of `src/CircularBuffer.h`: the fixed-capacity circular
buffer `CircularBuffer<TYPE, LEN>` with an `int` cursor (`counter`), a
saturating `int` element count (`total`), and `TYPE data[LEN]` storage.

Modelling conventions:
* `data` is a total function `Fin LEN → TYPE` (the C array of length `LEN`).
* `counter` and `total` are `Int`, as in the source (`int counter = 0;`,
  `int total = 0;`).
* In the source, `LEN` is an `unsigned int` template parameter, so in every
  expression `x % LEN` the `int` operand `x` is first converted to
  `unsigned int`, i.e. reduced modulo 2^32, and the remainder is computed on
  unsigned values.  For the cursor arithmetic (`(counter + 1) % LEN`,
  `(counter + LEN - 1) % LEN`) and the iterator offsets, the left operand is
  non-negative and well below 2^32 whenever the buffer invariant holds, and
  there the unsigned computation agrees with Euclidean `Int.emod`, so those
  spots are written with `%` on `Int` directly.  For `operator[]` the index
  is caller-supplied and may be negative; there the conversion to `unsigned`
  is observable (`get (-1)` lands in slot `(2^32 - 1) % LEN`, not `LEN - 1`),
  so it is modelled explicitly by `toUnsigned`.
* Direct array accesses `data[e]` with no `% LEN` in the source
  (`data[counter]` in `append`/`current`, `data[i]` in the `minimum` and
  `maximum` loops) have `e` in `[0, LEN)` whenever the buffer invariant
  holds; they are modelled by `islot e`, which is the identity there.
-/

namespace CircBuf

/-- state of `CircularBuffer<TYPE, LEN>`: the storage array `data`, the
current index `counter` and the saturating element count `total`. -/
@[ext]
structure CircularBuffer (TYPE : Type) (LEN : Nat) where
  data : Fin LEN → TYPE
  counter : Int
  total : Int

namespace CircularBuffer

variable {TYPE : Type} {LEN : Nat} [NeZero LEN]

/-- slot addressed by an in-range `int` expression used directly as an array
subscript in the source; the `% LEN` makes it total, and it is the identity
on `[0, LEN)`, where the buffer invariant keeps every such subscript. -/
def islot (i : Int) : Fin LEN :=
  ⟨(i % (LEN : Int)).toNat, by
    have hL : 0 < (LEN : Int) := by exact_mod_cast Nat.pos_of_ne_zero (NeZero.ne LEN)
    have h1 : 0 ≤ i % (LEN : Int) := Int.emod_nonneg i (by omega)
    have h2 : i % (LEN : Int) < (LEN : Int) := Int.emod_lt_of_pos i hL
    omega⟩

/-- conversion of a C++ `int` value to `unsigned int`: reduction modulo 2^32
(the two's-complement value of a negative `int`). -/
def toUnsigned (i : Int) : Nat := (i % (2 ^ 32 : Int)).toNat

/-- slot addressed by `data[index % LEN]` in `operator[]`: since `LEN` is
`unsigned int`, `index` is converted to `unsigned int` before the `%`. -/
def uslot (i : Int) : Fin LEN :=
  ⟨toUnsigned i % LEN, Nat.mod_lt _ (Nat.pos_of_ne_zero (NeZero.ne LEN))⟩

/-- default constructor `CircularBuffer()`: `data` is left uninitialized, so
the model takes an arbitrary initial array; `counter = 0`, `total = 0`. -/
def mkDefault (init : Fin LEN → TYPE) : CircularBuffer TYPE LEN :=
  ⟨init, 0, 0⟩

/-- fill constructor `CircularBuffer(TYPE default_value)`: every slot is set
to `default_value`; `counter = 0`, `total = 0`. -/
def mkFill (v : TYPE) : CircularBuffer TYPE LEN :=
  ⟨fun _ => v, 0, 0⟩

/-- const `operator[]`: `return data[index % LEN];`. -/
def get (b : CircularBuffer TYPE LEN) (index : Int) : TYPE :=
  b.data (uslot index)

/-- non-const `operator[]` used as the target of an assignment:
`data[index % LEN] = v`. -/
def set (b : CircularBuffer TYPE LEN) (index : Int) (v : TYPE) :
    CircularBuffer TYPE LEN :=
  { b with data := Function.update b.data (uslot index) v }

/-- `append`: `data[counter] = value; counter = (counter + 1) % LEN;
if (total < LEN) ++total;`. -/
def append (b : CircularBuffer TYPE LEN) (value : TYPE) :
    CircularBuffer TYPE LEN :=
  { data := Function.update b.data (islot b.counter) value
    counter := (b.counter + 1) % (LEN : Int)
    total := if b.total < (LEN : Int) then b.total + 1 else b.total }

/-- `index()`: the current cursor value. -/
def index (b : CircularBuffer TYPE LEN) : Int :=
  b.counter

/-- `current()`: `return data[counter];` (read view). -/
def current (b : CircularBuffer TYPE LEN) : TYPE :=
  b.data (islot b.counter)

/-- `count()`: the saturating total number of items appended. -/
def count (b : CircularBuffer TYPE LEN) : Int :=
  b.total

/-- `prev()`: `counter = (counter + LEN - 1) % LEN;`. -/
def prev (b : CircularBuffer TYPE LEN) : CircularBuffer TYPE LEN :=
  { b with counter := (b.counter + (LEN : Int) - 1) % (LEN : Int) }

/-- `next()`: `counter = (counter + 1) % LEN;`. -/
def next (b : CircularBuffer TYPE LEN) : CircularBuffer TYPE LEN :=
  { b with counter := (b.counter + 1) % (LEN : Int) }

/-- values produced by a range-based for loop over the buffer: the loop
starts at `begin()` = `iterator(data, counter + LEN + LEN - total)`, stops at
`end()` = `iterator(data, counter + LEN + LEN)` (`operator!=` compares
offsets, `operator++` increments the offset), and dereferences
`ptr[offset % LEN]` at each step, so it performs `total` iterations. -/
def toList (b : CircularBuffer TYPE LEN) : List TYPE :=
  (List.range b.total.toNat).map fun (j : Nat) =>
    b.data (islot (b.counter + (LEN : Int) + (LEN : Int) - b.total + (j : Int)))

/-- `populate(first, args...)` / the variadic constructor body: each initial
value is passed to `append` in order. -/
def appendList (b : CircularBuffer TYPE LEN) (vs : List TYPE) :
    CircularBuffer TYPE LEN :=
  vs.foldl append b

/-- `minimum()`: `value = data[0]; for (i = 1; i < LEN; ++i) if (data[i] <
value) value = data[i];` — a scan of all `LEN` slots. -/
def minimum [LinearOrder TYPE] (b : CircularBuffer TYPE LEN) : TYPE :=
  (List.range' 1 (LEN - 1)).foldl
    (fun value (i : Nat) =>
      if b.data (islot (i : Int)) < value then b.data (islot (i : Int)) else value)
    (b.data (islot 0))

/-- `maximum()`: `value = data[0]; for (i = 1; i < LEN; ++i) if (data[i] >
value) value = data[i];` — a scan of all `LEN` slots. -/
def maximum [LinearOrder TYPE] (b : CircularBuffer TYPE LEN) : TYPE :=
  (List.range' 1 (LEN - 1)).foldl
    (fun value (i : Nat) =>
      if b.data (islot (i : Int)) > value then b.data (islot (i : Int)) else value)
    (b.data (islot 0))

/-- buffer state invariant stated in the source comments: `counter` "will
always be between 0 and LEN" and `total` "will never exceed LEN". -/
def Inv (b : CircularBuffer TYPE LEN) : Prop :=
  0 ≤ b.counter ∧ b.counter < (LEN : Int) ∧ 0 ≤ b.total ∧ b.total ≤ (LEN : Int)

/-- helper: `islot` only depends on the argument modulo `LEN`. -/
theorem islot_congr {a b : Int} (h : a % (LEN : Int) = b % (LEN : Int)) :
    (islot a : Fin LEN) = islot b := by
  apply Fin.ext
  simp [islot, h]

/-- helper: `islot` absorbs an inner reduction modulo `LEN`. -/
theorem islot_emod (i : Int) :
    (islot (i % (LEN : Int)) : Fin LEN) = islot i :=
  islot_congr (Int.emod_emod_of_dvd i dvd_rfl)

/-- helper: on an in-range natural argument, `islot` is the identity. -/
theorem islot_coe (m : Nat) (h : m < LEN) :
    (islot (m : Int) : Fin LEN) = ⟨m, h⟩ := by
  apply Fin.ext
  have : ((m : Int) % (LEN : Int)) = ((m % LEN : Nat) : Int) := by
    push_cast
    rfl
  simp [islot, this, Nat.mod_eq_of_lt h]

/-- helper: the value of the `minimum` scan loop is bounded by its initial
accumulator. -/
theorem foldl_min_le_init {α : Type} [LinearOrder α] (f : Nat → α) (l : List Nat) (a : α) :
    l.foldl (fun value i => if f i < value then f i else value) a ≤ a := by
  induction l generalizing a with
  | nil => simp
  | cons x xs ih =>
    simp only [List.foldl_cons]
    by_cases h : f x < a
    · simp only [if_pos h]
      exact le_trans (ih (f x)) (le_of_lt h)
    · simp only [if_neg h]
      exact ih a

/-- helper: the value of the `minimum` scan loop is bounded by every scanned
entry. -/
theorem foldl_min_le_mem {α : Type} [LinearOrder α] (f : Nat → α) (l : List Nat) (a : α)
    (x : Nat) (hx : x ∈ l) :
    l.foldl (fun value i => if f i < value then f i else value) a ≤ f x := by
  induction l generalizing a with
  | nil => cases hx
  | cons y ys ih =>
    simp only [List.foldl_cons]
    rcases List.mem_cons.mp hx with rfl | hmem
    · refine le_trans (foldl_min_le_init f ys _) ?_
      by_cases h : f x < a
      · simp only [if_pos h]
        exact le_refl _
      · simp only [if_neg h]
        exact le_of_not_lt h
    · exact ih _ hmem

/-- helper: the value of the `minimum` scan loop is its initial accumulator
or one of the scanned entries. -/
theorem foldl_min_attained {α : Type} [LinearOrder α] (f : Nat → α) (l : List Nat) (a : α) :
    l.foldl (fun value i => if f i < value then f i else value) a = a ∨
      ∃ x ∈ l, l.foldl (fun value i => if f i < value then f i else value) a = f x := by
  induction l generalizing a with
  | nil => exact Or.inl rfl
  | cons y ys ih =>
    simp only [List.foldl_cons]
    by_cases h : f y < a
    · simp only [if_pos h]
      rcases ih (f y) with h1 | ⟨x, hx, h2⟩
      · exact Or.inr ⟨y, List.mem_cons_self y ys, h1⟩
      · exact Or.inr ⟨x, List.mem_cons_of_mem _ hx, h2⟩
    · simp only [if_neg h]
      rcases ih a with h1 | ⟨x, hx, h2⟩
      · exact Or.inl h1
      · exact Or.inr ⟨x, List.mem_cons_of_mem _ hx, h2⟩

/-- helper: the value of the `maximum` scan loop dominates its initial
accumulator. -/
theorem foldl_max_ge_init {α : Type} [LinearOrder α] (f : Nat → α) (l : List Nat) (a : α) :
    a ≤ l.foldl (fun value i => if f i > value then f i else value) a := by
  induction l generalizing a with
  | nil => simp
  | cons x xs ih =>
    simp only [List.foldl_cons]
    by_cases h : f x > a
    · simp only [if_pos h]
      exact le_trans (le_of_lt h) (ih (f x))
    · simp only [if_neg h]
      exact ih a

/-- helper: the value of the `maximum` scan loop dominates every scanned
entry. -/
theorem foldl_max_ge_mem {α : Type} [LinearOrder α] (f : Nat → α) (l : List Nat) (a : α)
    (x : Nat) (hx : x ∈ l) :
    f x ≤ l.foldl (fun value i => if f i > value then f i else value) a := by
  induction l generalizing a with
  | nil => cases hx
  | cons y ys ih =>
    simp only [List.foldl_cons]
    rcases List.mem_cons.mp hx with rfl | hmem
    · refine le_trans ?_ (foldl_max_ge_init f ys _)
      by_cases h : f x > a
      · simp only [if_pos h]
        exact le_refl _
      · simp only [if_neg h]
        exact le_of_not_lt h
    · exact ih _ hmem

/-- helper: the value of the `maximum` scan loop is its initial accumulator
or one of the scanned entries. -/
theorem foldl_max_attained {α : Type} [LinearOrder α] (f : Nat → α) (l : List Nat) (a : α) :
    l.foldl (fun value i => if f i > value then f i else value) a = a ∨
      ∃ x ∈ l, l.foldl (fun value i => if f i > value then f i else value) a = f x := by
  induction l generalizing a with
  | nil => exact Or.inl rfl
  | cons y ys ih =>
    simp only [List.foldl_cons]
    by_cases h : f y > a
    · simp only [if_pos h]
      rcases ih (f y) with h1 | ⟨x, hx, h2⟩
      · exact Or.inr ⟨y, List.mem_cons_self y ys, h1⟩
      · exact Or.inr ⟨x, List.mem_cons_of_mem _ hx, h2⟩
    · simp only [if_neg h]
      rcases ih a with h1 | ⟨x, hx, h2⟩
      · exact Or.inl h1
      · exact Or.inr ⟨x, List.mem_cons_of_mem _ hx, h2⟩

/-- helper: `minimum()` is a lower bound on every storage slot. -/
theorem minimum_le [LinearOrder TYPE] (b : CircularBuffer TYPE LEN) (i : Fin LEN) :
    b.minimum ≤ b.data i := by
  have hL : 0 < LEN := Nat.pos_of_ne_zero (NeZero.ne LEN)
  have hz : (islot 0 : Fin LEN) = ⟨0, hL⟩ := by
    have := islot_coe 0 hL
    simpa using this
  unfold minimum
  rcases Nat.eq_zero_or_pos i.val with h0 | h1
  · have hi : i = ⟨0, hL⟩ := Fin.ext h0
    rw [hi, ← hz]
    exact foldl_min_le_init (fun n => b.data (islot (n : Int)))
      (List.range' 1 (LEN - 1)) (b.data (islot 0))
  · have hmem : i.val ∈ List.range' 1 (LEN - 1) :=
      List.mem_range'_1.mpr ⟨h1, by omega⟩
    have hiv : islot ((i.val : Nat) : Int) = i := islot_coe i.val i.isLt
    rw [← hiv]
    exact foldl_min_le_mem (fun n => b.data (islot (n : Int)))
      (List.range' 1 (LEN - 1)) (b.data (islot 0)) i.val hmem

/-- helper: `minimum()` is the value of one of the storage slots. -/
theorem minimum_attained [LinearOrder TYPE] (b : CircularBuffer TYPE LEN) :
    ∃ i : Fin LEN, b.minimum = b.data i := by
  unfold minimum
  rcases foldl_min_attained (fun n => b.data (islot (n : Int)))
    (List.range' 1 (LEN - 1)) (b.data (islot 0)) with h | ⟨x, hx, h⟩
  · exact ⟨islot 0, h⟩
  · exact ⟨islot (x : Int), h⟩

/-- helper: `maximum()` is an upper bound on every storage slot. -/
theorem le_maximum [LinearOrder TYPE] (b : CircularBuffer TYPE LEN) (i : Fin LEN) :
    b.data i ≤ b.maximum := by
  have hL : 0 < LEN := Nat.pos_of_ne_zero (NeZero.ne LEN)
  have hz : (islot 0 : Fin LEN) = ⟨0, hL⟩ := by
    have := islot_coe 0 hL
    simpa using this
  unfold maximum
  rcases Nat.eq_zero_or_pos i.val with h0 | h1
  · have hi : i = ⟨0, hL⟩ := Fin.ext h0
    rw [hi, ← hz]
    exact foldl_max_ge_init (fun n => b.data (islot (n : Int)))
      (List.range' 1 (LEN - 1)) (b.data (islot 0))
  · have hmem : i.val ∈ List.range' 1 (LEN - 1) :=
      List.mem_range'_1.mpr ⟨h1, by omega⟩
    have hiv : islot ((i.val : Nat) : Int) = i := islot_coe i.val i.isLt
    rw [← hiv]
    exact foldl_max_ge_mem (fun n => b.data (islot (n : Int)))
      (List.range' 1 (LEN - 1)) (b.data (islot 0)) i.val hmem

/-- helper: `maximum()` is the value of one of the storage slots. -/
theorem maximum_attained [LinearOrder TYPE] (b : CircularBuffer TYPE LEN) :
    ∃ i : Fin LEN, b.maximum = b.data i := by
  unfold maximum
  rcases foldl_max_attained (fun n => b.data (islot (n : Int)))
    (List.range' 1 (LEN - 1)) (b.data (islot 0)) with h | ⟨x, hx, h⟩
  · exact ⟨islot 0, h⟩
  · exact ⟨islot (x : Int), h⟩

/-- C2: for every buffer over an ordered element type, `minimum()` returns the
least and `maximum()` returns the greatest value found among all `LEN` storage
slots — the scan covers every storage slot, not just the `count` valid ones. -/
theorem minimum_maximum_scan_all_slots [LinearOrder TYPE] (b : CircularBuffer TYPE LEN) :
    ((∀ i : Fin LEN, b.minimum ≤ b.data i) ∧ (∃ i : Fin LEN, b.minimum = b.data i)) ∧
      ((∀ i : Fin LEN, b.data i ≤ b.maximum) ∧ (∃ i : Fin LEN, b.maximum = b.data i)) :=
  ⟨⟨minimum_le b, minimum_attained b⟩, ⟨le_maximum b, maximum_attained b⟩⟩

/-- witness for C2 at a concrete buffer of capacity 3 holding `[0, 1, 2]`. -/
theorem minimum_maximum_scan_all_slots_witness :
    (mkDefault (fun j : Fin 3 => (j.val : Int))).minimum ≤
      (mkDefault (fun j : Fin 3 => (j.val : Int))).data ⟨2, by omega⟩ :=
  (minimum_maximum_scan_all_slots _).1.1 ⟨2, by omega⟩

/-- C10: a buffer built with the fill constructor has `minimum() = v` and
`maximum() = v` even though `count() = 0`, because every slot holds `v`. -/
theorem mkFill_minimum_maximum_count [LinearOrder TYPE] (v : TYPE) :
    (mkFill v : CircularBuffer TYPE LEN).minimum = v ∧ (mkFill v : CircularBuffer TYPE LEN).maximum = v ∧
      (mkFill v : CircularBuffer TYPE LEN).count = 0 := by
  refine ⟨?_, ?_, rfl⟩
  · unfold minimum
    rcases foldl_min_attained (fun n => (mkFill v : CircularBuffer TYPE LEN).data (islot (n : Int)))
      (List.range' 1 (LEN - 1)) ((mkFill v : CircularBuffer TYPE LEN).data (islot 0)) with h | ⟨x, hx, h⟩
    · exact h
    · exact h
  · unfold maximum
    rcases foldl_max_attained (fun n => (mkFill v : CircularBuffer TYPE LEN).data (islot (n : Int)))
      (List.range' 1 (LEN - 1)) ((mkFill v : CircularBuffer TYPE LEN).data (islot 0)) with h | ⟨x, hx, h⟩
    · exact h
    · exact h

/-- witness for C10 at capacity 3, fill value 7. -/
theorem mkFill_minimum_maximum_count_witness :
    (mkFill 7 : CircularBuffer Int 3).minimum = 7 ∧ (mkFill 7 : CircularBuffer Int 3).maximum = 7 ∧
      (mkFill 7 : CircularBuffer Int 3).count = 0 :=
  mkFill_minimum_maximum_count 7

/-- C6: every state-producing operation establishes or preserves the state
invariants: `0 ≤ counter < LEN`, `0 ≤ total ≤ LEN`, `total` never decreases,
and once `total = LEN` it stays `LEN`.  The remaining public operations
(`operator[]` reads, `count`, `index`, `current`, iteration, `minimum`,
`maximum`) are modelled as pure functions of the state and mutate nothing. -/
theorem ops_preserve_invariants (b : CircularBuffer TYPE LEN) (hb : Inv b)
    (init : Fin LEN → TYPE) (v w : TYPE) (i : Int) :
    Inv (mkDefault init) ∧ Inv (mkFill v : CircularBuffer TYPE LEN) ∧
      Inv (b.append v) ∧ Inv b.next ∧ Inv b.prev ∧ Inv (b.set i w) ∧
      b.total ≤ (b.append v).total ∧
      b.next.total = b.total ∧ b.prev.total = b.total ∧ (b.set i w).total = b.total ∧
      (b.total = (LEN : Int) → (b.append v).total = (LEN : Int)) := by
  obtain ⟨h1, h2, h3, h4⟩ := hb
  have hL : 0 < (LEN : Int) := by exact_mod_cast Nat.pos_of_ne_zero (NeZero.ne LEN)
  have hLne : (LEN : Int) ≠ 0 := by omega
  have ha1 : 0 ≤ (b.counter + 1) % (LEN : Int) := Int.emod_nonneg _ hLne
  have ha2 : (b.counter + 1) % (LEN : Int) < (LEN : Int) := Int.emod_lt_of_pos _ hL
  have hp1 : 0 ≤ (b.counter + (LEN : Int) - 1) % (LEN : Int) := Int.emod_nonneg _ hLne
  have hp2 : (b.counter + (LEN : Int) - 1) % (LEN : Int) < (LEN : Int) :=
    Int.emod_lt_of_pos _ hL
  refine ⟨?_, ?_, ?_, ?_, ?_, ?_, ?_, rfl, rfl, rfl, ?_⟩
  · simp only [Inv, mkDefault]
    omega
  · simp only [Inv, mkFill]
    omega
  · simp only [Inv, append]
    refine ⟨ha1, ha2, ?_, ?_⟩ <;> split <;> omega
  · exact ⟨ha1, ha2, h3, h4⟩
  · exact ⟨hp1, hp2, h3, h4⟩
  · exact ⟨h1, h2, h3, h4⟩
  · simp only [append]
    split <;> omega
  · intro h
    simp only [append]
    split <;> omega

/-- witness for C6 at a concrete capacity-2 buffer. -/
theorem ops_preserve_invariants_witness :
    Inv ((mkFill 0 : CircularBuffer Int 2).append 5) :=
  (ops_preserve_invariants (mkFill 0) ⟨by decide, by decide, by decide, by decide⟩
    (fun _ => 0) 5 6 0).2.2.1

/-- helper: with the invariant in force, `next` and `prev` are mutually
inverse on the whole state. -/
theorem cursor_roundtrip (b : CircularBuffer TYPE LEN) (hb : Inv b) :
    b.next.prev = b ∧ b.prev.next = b := by
  obtain ⟨h1, h2, -, -⟩ := hb
  constructor
  · refine CircularBuffer.ext rfl ?_ rfl
    show ((b.counter + 1) % (LEN : Int) + (LEN : Int) - 1) % (LEN : Int) = b.counter
    have e1 : (b.counter + 1) % (LEN : Int) + (LEN : Int) - 1 =
        (b.counter + 1) % (LEN : Int) + ((LEN : Int) - 1) := by ring
    rw [e1, Int.emod_add_emod]
    have e2 : b.counter + 1 + ((LEN : Int) - 1) = b.counter + (LEN : Int) * 1 := by ring
    rw [e2, Int.add_mul_emod_self_left, Int.emod_eq_of_lt h1 h2]
  · refine CircularBuffer.ext rfl ?_ rfl
    show ((b.counter + (LEN : Int) - 1) % (LEN : Int) + 1) % (LEN : Int) = b.counter
    rw [Int.emod_add_emod]
    have e2 : b.counter + (LEN : Int) - 1 + 1 = b.counter + (LEN : Int) * 1 := by ring
    rw [e2, Int.add_mul_emod_self_left, Int.emod_eq_of_lt h1 h2]

/-- C8: `next()` then `prev()` (and `prev()` then `next()`) restores the
cursor (`index()`) to its original value and leaves the storage and the
count unchanged. -/
theorem advance_retreat_roundtrip (b : CircularBuffer TYPE LEN) (hb : Inv b) :
    (b.next.prev.index = b.index ∧ b.next.prev.data = b.data ∧
      b.next.prev.count = b.count) ∧
    (b.prev.next.index = b.index ∧ b.prev.next.data = b.data ∧
      b.prev.next.count = b.count) := by
  obtain ⟨hnp, hpn⟩ := cursor_roundtrip b hb
  exact ⟨⟨by rw [hnp], by rw [hnp], by rw [hnp]⟩,
    ⟨by rw [hpn], by rw [hpn], by rw [hpn]⟩⟩

/-- witness for C8 at a concrete capacity-3 buffer with cursor 2. -/
theorem advance_retreat_roundtrip_witness :
    ((mkFill 5 : CircularBuffer Int 3).next.next).next.prev.index =
      ((mkFill 5 : CircularBuffer Int 3).next.next).index :=
  (advance_retreat_roundtrip _ ⟨by decide, by decide, by decide, by decide⟩).1.1

/-- C9: a direct indexed write changes only the slot the index maps to:
the cursor and the count are unchanged, the addressed slot receives the new
value, and every other slot keeps its previous value. -/
theorem set_frame (b : CircularBuffer TYPE LEN) (i : Int) (v : TYPE) :
    (b.set i v).index = b.index ∧ (b.set i v).count = b.count ∧
      (b.set i v).data (uslot i) = v ∧
      ∀ j : Fin LEN, j ≠ uslot i → (b.set i v).data j = b.data j := by
  refine ⟨rfl, rfl, ?_, ?_⟩
  · simp [set]
  · intro j hj
    simp only [set]
    exact Function.update_noteq hj v b.data

/-- witness for C9: writing index 1 of a capacity-3 buffer leaves slot 0
unchanged. -/
theorem set_frame_witness :
    ((mkFill 0 : CircularBuffer Int 3).set 1 9).data ⟨0, by omega⟩ =
      (mkFill 0 : CircularBuffer Int 3).data ⟨0, by omega⟩ :=
  (set_frame (mkFill 0) 1 9).2.2.2 ⟨0, by omega⟩ (by decide)

/-- helper: appending `vs ++ [v]` is appending `vs` and then `v`. -/
theorem appendList_concat (b : CircularBuffer TYPE LEN) (vs : List TYPE) (v : TYPE) :
    appendList b (vs ++ [v]) = append (appendList b vs) v := by
  simp [appendList, List.foldl_append]

/-- helper: the state reached by appending the values of `vs`, in order, to a
freshly default-constructed buffer: the cursor is `vs.length % LEN`, the
count is `min vs.length LEN`, and each of the last `min vs.length LEN`
appended values sits in the slot `m % LEN` it was written to. -/
theorem appendList_mkDefault_spec (init : Fin LEN → TYPE) (vs : List TYPE) :
    (appendList (mkDefault init) vs).counter = (vs.length : Int) % (LEN : Int) ∧
    (appendList (mkDefault init) vs).total = ((min vs.length LEN : Nat) : Int) ∧
    ∀ (m : Nat) (hm : m < vs.length), vs.length ≤ m + LEN →
      (appendList (mkDefault init) vs).data (islot (m : Int)) = vs.get ⟨m, hm⟩ := by
  have hL : 0 < LEN := Nat.pos_of_ne_zero (NeZero.ne LEN)
  have hLI : 0 < (LEN : Int) := by exact_mod_cast hL
  induction vs using List.reverseRecOn with
  | nil =>
    refine ⟨by simp [appendList, mkDefault], by simp [appendList, mkDefault], ?_⟩
    intro m hm
    simp at hm
  | append_singleton vs v ih =>
    obtain ⟨hc, ht, hd⟩ := ih
    rw [appendList_concat]
    set b := appendList (mkDefault init) vs with hb
    refine ⟨?_, ?_, ?_⟩
    · simp only [append]
      rw [hc, Int.emod_add_emod]
      congr 1
      simp
    · simp only [append, ht]
      have hlen : (vs ++ [v]).length = vs.length + 1 := by simp
      rw [hlen]
      split <;> push_cast at * <;> omega
    · intro m hm hge
      have hlen : (vs ++ [v]).length = vs.length + 1 := by simp
      rw [hlen] at hm hge
      rcases Nat.lt_or_ge m vs.length with hmlt | hmge
      · have hne : (islot (m : Int) : Fin LEN) ≠ islot b.counter := by
          rw [hc, islot_emod]
          intro hEq
          have hv1 : (((m : Int) % (LEN : Int)).toNat) =
              (((vs.length : Int) % (LEN : Int)).toNat) := congrArg Fin.val hEq
          have hm0 : 0 ≤ (m : Int) % (LEN : Int) := Int.emod_nonneg _ (by omega)
          have hn0 : 0 ≤ (vs.length : Int) % (LEN : Int) := Int.emod_nonneg _ (by omega)
          have hv2 : (m : Int) % (LEN : Int) = (vs.length : Int) % (LEN : Int) := by omega
          have hdvd : (LEN : Int) ∣ ((vs.length : Int) - (m : Int)) := by
            have hs := Int.sub_emod (vs.length : Int) (m : Int) (LEN : Int)
            rw [← hv2, sub_self, Int.zero_emod] at hs
            exact Int.dvd_of_emod_eq_zero hs
          have hlb : (LEN : Int) ≤ (vs.length : Int) - (m : Int) :=
            Int.le_of_dvd (by omega) hdvd
          omega
        calc (append b v).data (islot (m : Int))
            = b.data (islot (m : Int)) := by
              simp only [append]
              exact Function.update_noteq hne v b.data
          _ = vs.get ⟨m, hmlt⟩ := hd m hmlt (by omega)
          _ = (vs ++ [v]).get ⟨m, by simp; omega⟩ := by
              simp only [List.get_eq_getElem]
              exact (List.getElem_append_left hmlt).symm
      · have hmeq : m = vs.length := by omega
        subst hmeq
        have heq : (islot ((vs.length : Nat) : Int) : Fin LEN) =
            islot b.counter := by
          rw [hc, islot_emod]
        simp only [append]
        rw [heq, Function.update_same]
        simp only [List.get_eq_getElem]
        exact (List.getElem_concat_length vs v vs.length rfl _).symm

/-- helper: iterating the buffer produced by appending `vs` to a fresh buffer
yields the suffix of `vs` of length `min vs.length LEN`, oldest first. -/
theorem toList_appendList (init : Fin LEN → TYPE) (vs : List TYPE) :
    toList (appendList (mkDefault init) vs) = vs.drop (vs.length - LEN) := by
  have hL : 0 < LEN := Nat.pos_of_ne_zero (NeZero.ne LEN)
  obtain ⟨hc, ht, hd⟩ := appendList_mkDefault_spec init vs
  set b := appendList (mkDefault init) vs with hb
  set N := vs.length with hN
  set M := min N LEN with hM
  have htN : b.total.toNat = M := by
    rw [ht]
    simp
  have hlen1 : (toList b).length = M := by simp [toList, htN]
  have hlen2 : (vs.drop (N - LEN)).length = M := by
    rw [List.length_drop]
    omega
  refine List.ext_getElem (by rw [hlen1, hlen2]) ?_
  intro j h1 h2
  have hjM : j < M := by rwa [hlen1] at h1
  simp only [toList, List.getElem_map, List.getElem_range]
  have harg : (islot (b.counter + (LEN : Int) + (LEN : Int) - b.total + (j : Int)) : Fin LEN)
      = islot (((N - M + j : Nat) : Int)) := by
    apply islot_congr
    rw [hc, ht]
    have e1 : (N : Int) % (LEN : Int) + (LEN : Int) + (LEN : Int) -
        ((M : Nat) : Int) + (j : Int) =
        (N : Int) % (LEN : Int) + ((LEN : Int) + (LEN : Int) - ((M : Nat) : Int) + (j : Int)) := by
      ring
    rw [e1, Int.emod_add_emod]
    have hMN : M ≤ N := min_le_left _ _
    have e2 : (N : Int) + ((LEN : Int) + (LEN : Int) - ((M : Nat) : Int) + (j : Int)) =
        ((N - M + j : Nat) : Int) + (LEN : Int) * 2 := by
      push_cast [hMN]
      ring
    rw [e2, Int.add_mul_emod_self_left]
  rw [harg]
  have hidx : N - M + j = N - LEN + j := by omega
  rw [hidx]
  have hmlt : N - LEN + j < N := by omega
  rw [hd (N - LEN + j) hmlt (by omega)]
  simp only [List.get_eq_getElem]
  rw [List.getElem_drop]

/-- C1: appending `v1..vN` into a freshly default-constructed buffer of
capacity `LEN` and then iterating yields exactly the last `min N LEN`
appended values, oldest first: the suffix `vs.drop (N - LEN)`; when
`N ≤ LEN` this is all of `vs` in append order. -/
theorem append_iteration_yields_suffix (init : Fin LEN → TYPE) (vs : List TYPE) :
    toList (appendList (mkDefault init) vs) = vs.drop (vs.length - LEN) ∧
      (vs.length ≤ LEN → toList (appendList (mkDefault init) vs) = vs) := by
  refine ⟨toList_appendList init vs, fun h => ?_⟩
  rw [toList_appendList init vs, Nat.sub_eq_zero_of_le h, List.drop_zero]

/-- witness for C1: capacity 3, appends `10,20,30,40`, iteration `[20,30,40]`. -/
theorem append_iteration_yields_suffix_witness :
    toList (appendList (mkDefault (fun _ : Fin 3 => (0 : Int))) [10, 20, 30, 40]) =
      [20, 30, 40] :=
  ((append_iteration_yields_suffix (fun _ => (0 : Int)) [10, 20, 30, 40]).1).trans rfl

/-- C4: after any sequence of `N` appends into a freshly default-constructed
buffer of capacity `LEN`, `count()` equals `min N LEN`. -/
theorem append_count_law (init : Fin LEN → TYPE) (vs : List TYPE) :
    (appendList (mkDefault init) vs).count = ((min vs.length LEN : Nat) : Int) :=
  (appendList_mkDefault_spec init vs).2.1

/-- witness for C4: five appends into a capacity-3 buffer give count 3. -/
theorem append_count_law_witness :
    (appendList (mkDefault (fun _ : Fin 3 => (0 : Int))) [1, 2, 3, 4, 5]).count = 3 :=
  (append_count_law (fun _ => (0 : Int)) [1, 2, 3, 4, 5]).trans rfl

/-- helper: iteration reads the `total` slots that end at the cursor; the
iterator offsets only matter modulo `LEN`, so the two extra `LEN` summands
in `begin()` vanish. -/
theorem toList_window (b : CircularBuffer TYPE LEN) :
    toList b = (List.range b.total.toNat).map (fun (j : Nat) =>
      b.data (islot (b.counter - b.total + (j : Int)))) := by
  unfold toList
  refine congrArg (fun f => List.map f (List.range b.total.toNat)) ?_
  funext j
  apply congrArg
  apply islot_congr
  have e1 : b.counter + (LEN : Int) + (LEN : Int) - b.total + (j : Int) =
      (b.counter - b.total + (j : Int)) + (LEN : Int) * 2 := by ring
  rw [e1, Int.add_mul_emod_self_left]

/-- C5 (amended): iteration yields the `count()` elements stored in the
window of slots `position() - count(), ..., position() - 1` taken modulo
`LEN`, oldest slot first — so it is determined by (and depends on) the
cursor position.  A net-zero cursor movement (`next()` then `prev()`, or
`prev()` then `next()`) between appends and iteration leaves the produced
sequence unchanged, but a single `next()` or `prev()` shifts the window and
changes the sequence, as the counterexample shows. -/
theorem iteration_reads_cursor_window (b : CircularBuffer TYPE LEN) (hb : Inv b) :
    toList b = (List.range b.total.toNat).map (fun (j : Nat) =>
      b.data (islot (b.counter - b.total + (j : Int)))) ∧
    toList b.next.prev = toList b ∧ toList b.prev.next = toList b := by
  obtain ⟨h1, h2⟩ := cursor_roundtrip b hb
  exact ⟨toList_window b, by rw [h1], by rw [h2]⟩

/-- counterexample to C5 as stated: on a capacity-3 buffer holding
`10,20,30`, a single `prev()` between the appends and the iteration changes
the produced sequence from `[10, 20, 30]` to `[30, 10, 20]`. -/
theorem iteration_depends_on_cursor_cex :
    toList ((appendList (mkDefault (fun _ : Fin 3 => (0 : Int))) [10, 20, 30]).prev) ≠
      toList (appendList (mkDefault (fun _ : Fin 3 => (0 : Int))) [10, 20, 30]) := by
  decide

/-- witness for C5 at a concrete capacity-3 buffer. -/
theorem iteration_reads_cursor_window_witness :
    toList ((appendList (mkDefault (fun _ : Fin 3 => (0 : Int))) [10, 20]).next.prev) =
      toList (appendList (mkDefault (fun _ : Fin 3 => (0 : Int))) [10, 20]) :=
  (iteration_reads_cursor_window _
    ⟨by decide, by decide, by decide, by decide⟩).2.1

/-- C3 (amended): indexed access never faults: every `int` index aliases a
valid slot, obtained by converting the index to `unsigned int` (reduction
modulo 2^32) and then reducing modulo `LEN`.  For `0 ≤ i < 2^32` that slot
is `i % LEN`, but for negative indices the unsigned conversion is
observable: on a capacity-3 buffer, `get(-1)` equals `get(0)`, not
`get(2)`. -/
theorem indexed_access_total_wraps (b : CircularBuffer TYPE LEN) (i : Int) (v : TYPE) :
    (∃ j : Fin LEN, ∀ b' : CircularBuffer TYPE LEN,
        b'.get i = b'.data j ∧ (b'.set i v).data j = v) ∧
    (0 ≤ i → i < (2 ^ 32 : Int) → b.get i = b.data (islot i)) ∧
    (∀ b3 : CircularBuffer TYPE 3, b3.get (-1) = b3.get 0) := by
  refine ⟨⟨uslot i, fun b' => ⟨rfl, by simp [set]⟩⟩, ?_, ?_⟩
  · intro h0 h1
    unfold get
    apply congrArg
    apply Fin.ext
    simp only [uslot, islot, toUnsigned]
    rw [Int.emod_eq_of_lt h0 h1]
    obtain ⟨n, rfl⟩ := Int.eq_ofNat_of_zero_le h0
    have e : ((n : Int) % (LEN : Int)) = ((n % LEN : Nat) : Int) := by
      push_cast
      rfl
    rw [e, Int.toNat_natCast, Int.toNat_natCast]
  · intro b3
    unfold get
    apply congrArg
    decide

/-- counterexample to C3 as stated: on a capacity-3 buffer whose slots hold
`0, 1, 2`, `get(-1)` reads slot `(2^32 - 1) % 3 = 0` and differs from
`get(2)`. -/
theorem get_neg_one_ne_get_two_cex :
    (mkDefault (fun j : Fin 3 => (j.val : Int))).get (-1) ≠
      (mkDefault (fun j : Fin 3 => (j.val : Int))).get 2 := by
  decide

/-- witness for C3 on a concrete capacity-3 buffer. -/
theorem indexed_access_total_wraps_witness :
    (mkDefault (fun j : Fin 3 => (j.val : Int))).get (-1) =
      (mkDefault (fun j : Fin 3 => (j.val : Int))).get 0 :=
  (indexed_access_total_wraps (mkDefault (fun j : Fin 3 => (j.val : Int))) (-1) 0).2.2 _

/-- C7 (amended): indexed reads are periodic with period `LEN` on every
index range free of unsigned wraparound: for `0 ≤ i` with `i + LEN < 2^32`,
`get(i) = get(i + LEN)`.  At negative indices the law fails because the
index is converted to `unsigned int` before the modulo, as the
counterexample shows. -/
theorem get_periodic_of_nonneg (b : CircularBuffer TYPE LEN) (i : Int)
    (h0 : 0 ≤ i) (h1 : i + (LEN : Int) < (2 ^ 32 : Int)) :
    b.get i = b.get (i + (LEN : Int)) := by
  have hL0 : (0 : Int) ≤ (LEN : Int) := by positivity
  unfold get
  apply congrArg
  apply Fin.ext
  simp only [uslot, toUnsigned]
  have e1 : i % (2 ^ 32 : Int) = i := Int.emod_eq_of_lt h0 (by omega)
  have e2 : (i + (LEN : Int)) % (2 ^ 32 : Int) = i + (LEN : Int) :=
    Int.emod_eq_of_lt (by omega) h1
  rw [e1, e2]
  obtain ⟨n, rfl⟩ := Int.eq_ofNat_of_zero_le h0
  have e3 : ((n : Int) + (LEN : Int)) = ((n + LEN : Nat) : Int) := by
    push_cast
    rfl
  rw [e3, Int.toNat_natCast, Int.toNat_natCast]
  exact (Nat.add_mod_right n LEN).symm

/-- counterexample to C7 as stated: on a capacity-3 buffer holding
`10, 20, 30`, `get(-1)` reads slot 0 (value 10) while `get(-1 + 3)` reads
slot 2 (value 30). -/
theorem get_periodicity_cex :
    get (appendList (mkDefault (fun _ : Fin 3 => (0 : Int))) [10, 20, 30]) (-1) ≠
      get (appendList (mkDefault (fun _ : Fin 3 => (0 : Int))) [10, 20, 30]) (-1 + 3) := by
  decide

/-- witness for C7 at index 1 on a concrete capacity-3 buffer. -/
theorem get_periodic_of_nonneg_witness :
    (mkDefault (fun j : Fin 3 => (j.val : Int))).get 1 =
      (mkDefault (fun j : Fin 3 => (j.val : Int))).get (1 + 3) :=
  get_periodic_of_nonneg (mkDefault (fun j => (j.val : Int))) 1 (by decide) (by decide)

end CircularBuffer

end CircBuf
